import Mathlib

/-!
Verification development for the multivariate-normal distribution component
of a Gaussian-process library (gpytorch `distributions` subpackage).

The repository provides `gpytorch/distributions/distribution.py` (the
`_DistributionBase` class, whose algebraic dunder methods all raise
`NotImplementedError`) together with the test suite
`test/distributions/test_multivariate_normal.py`.  The concrete
`MultivariateNormal` subclass exercised by the tests is not part of the
provided sources, so its operations are modelled here from the
specification (sections 3, 4.2-4.5 of the design document), with tensors
over the reals; randomness is abstracted as an explicit stream of reals.
-/

open scoped BigOperators
open Matrix (transpose)

/-- Error kinds surfaced by distribution operations (spec section 7).
`notImplemented` is raised by the algebraic methods of `_DistributionBase`
in `src/gpytorch/distributions/distribution.py`; `unsupportedOperation`
is the failure demanded for operands outside {real scalar, same-family
distribution}. -/
inductive DistError where
  | notImplemented
  | unsupportedOperation
  deriving DecidableEq, Repr

/-- Modelled from the spec: the data model of section 3.  A distribution
instance holds a mean vector, the covariance source (rendered here as the
dense value of the lazy operator over `Fin n`), the `islazy` discriminant,
and the memoized triangular factor, absent until first required. -/
structure MultivariateNormal (n : ℕ) where
  mean : Fin n → ℝ
  lazyCovarianceMatrix : Matrix (Fin n) (Fin n) ℝ
  islazy : Bool
  cachedScaleTril : Option (Matrix (Fin n) (Fin n) ℝ)

/-- Operand universe for the algebraic operations of section 4.3: a real
scalar, a same-family distribution, or any other host-language object
(represented opaquely by a code). -/
inductive Operand (n : ℕ) where
  | scalar (c : ℝ)
  | sameFamily (d : MultivariateNormal n)
  | foreign (code : ℕ)

/-- From `src/gpytorch/distributions/distribution.py`: `_DistributionBase.__add__`
raises `NotImplementedError` unconditionally. -/
def baseAdd (n : ℕ) (_p : MultivariateNormal n) (_o : Operand n) :
    Except DistError (MultivariateNormal n) :=
  .error .notImplemented

/-- From `src/gpytorch/distributions/distribution.py`: `_DistributionBase.__mul__`
raises `NotImplementedError` unconditionally. -/
def baseMul (n : ℕ) (_p : MultivariateNormal n) (_o : Operand n) :
    Except DistError (MultivariateNormal n) :=
  .error .notImplemented

/-- From `src/gpytorch/distributions/distribution.py`: `_DistributionBase.__div__`
raises `NotImplementedError` unconditionally. -/
def baseDiv (n : ℕ) (_p : MultivariateNormal n) (_o : Operand n) :
    Except DistError (MultivariateNormal n) :=
  .error .notImplemented

/-- Modelled from the spec: addition with a scalar constant `c` returns a
new distribution with `mean + c`, covariance unchanged and the cached
triangular factor shared by value with the parent (section 4.3). -/
def MultivariateNormal.addScalar {n : ℕ} (p : MultivariateNormal n) (c : ℝ) :
    MultivariateNormal n :=
  { mean := fun i => p.mean i + c
    lazyCovarianceMatrix := p.lazyCovarianceMatrix
    islazy := p.islazy
    cachedScaleTril := p.cachedScaleTril }

/-- Modelled from the spec: addition with another instance of the same
family (independent sum): means add elementwise and covariances add as
lazy operators; no factor for the sum is known yet (section 4.3). -/
def MultivariateNormal.addDist {n : ℕ} (p q : MultivariateNormal n) :
    MultivariateNormal n :=
  { mean := fun i => p.mean i + q.mean i
    lazyCovarianceMatrix := p.lazyCovarianceMatrix + q.lazyCovarianceMatrix
    islazy := p.islazy && q.islazy
    cachedScaleTril := none }

/-- Modelled from the spec: scalar multiplication by `k` scales the mean
by `k`, the covariance by `k^2`, and the cached triangular factor by `k`
directly, without recomputing a decomposition (section 4.3). -/
def MultivariateNormal.mulScalar {n : ℕ} (p : MultivariateNormal n) (k : ℝ) :
    MultivariateNormal n :=
  { mean := fun i => k * p.mean i
    lazyCovarianceMatrix := (k ^ 2) • p.lazyCovarianceMatrix
    islazy := p.islazy
    cachedScaleTril := p.cachedScaleTril.map (fun L => k • L) }

/-- Modelled from the spec: scalar division by `k` is equivalent to
multiplication by `1/k` (section 4.3). -/
noncomputable def MultivariateNormal.divScalar {n : ℕ} (p : MultivariateNormal n) (k : ℝ) :
    MultivariateNormal n :=
  p.mulScalar (1 / k)

/-- Modelled from the spec: the `add` operation dispatches on the operand
type and fails with `UnsupportedOperationError` for operand types outside
{real scalar, same-family distribution} (section 4.3). -/
def MultivariateNormal.add {n : ℕ} (p : MultivariateNormal n) :
    Operand n → Except DistError (MultivariateNormal n)
  | .scalar c => .ok (p.addScalar c)
  | .sameFamily q => .ok (p.addDist q)
  | .foreign _ => .error .unsupportedOperation

/-- Modelled from the spec: the `mul` operation accepts only a real
scalar; every other operand fails with `UnsupportedOperationError`
(section 4.3: only scalar multiplication is defined). -/
def MultivariateNormal.mul {n : ℕ} (p : MultivariateNormal n) :
    Operand n → Except DistError (MultivariateNormal n)
  | .scalar c => .ok (p.mulScalar c)
  | .sameFamily _ => .error .unsupportedOperation
  | .foreign _ => .error .unsupportedOperation

/-- Modelled from the spec: the `div` operation accepts only a real
scalar, delegating to multiplication by the reciprocal; every other
operand fails with `UnsupportedOperationError` (section 4.3). -/
noncomputable def MultivariateNormal.div {n : ℕ} (p : MultivariateNormal n) :
    Operand n → Except DistError (MultivariateNormal n)
  | .scalar c => .ok (p.divScalar c)
  | .sameFamily _ => .error .unsupportedOperation
  | .foreign _ => .error .unsupportedOperation

/-- C2: operations on operands outside {real scalar, same-family
distribution} fail with `UnsupportedOperationError`, and a real-scalar
operand succeeds, returning a new distribution. -/
theorem mvn_ops_operand_dispatch (n : ℕ) (p : MultivariateNormal n)
    (m : ℕ) (c : ℝ) :
    (p.add (.foreign m) = .error .unsupportedOperation ∧
      p.mul (.foreign m) = .error .unsupportedOperation ∧
      p.div (.foreign m) = .error .unsupportedOperation) ∧
    (p.add (.scalar c) = .ok (p.addScalar c) ∧
      p.mul (.scalar c) = .ok (p.mulScalar c) ∧
      p.div (.scalar c) = .ok (p.divScalar c)) :=
  ⟨⟨rfl, rfl, rfl⟩, ⟨rfl, rfl, rfl⟩⟩

/-- C4: adding a scalar constant shifts the mean by `c` while the
covariance matrix and the cached triangular factor are unchanged — the
factor field of the result is the very value held by the parent. -/
theorem mvn_add_scalar_frame (n : ℕ) (p : MultivariateNormal n) (c : ℝ) :
    (p.addScalar c).mean = (fun i => p.mean i + c) ∧
    (p.addScalar c).lazyCovarianceMatrix = p.lazyCovarianceMatrix ∧
    (p.addScalar c).cachedScaleTril = p.cachedScaleTril :=
  ⟨rfl, rfl, rfl⟩

/-- C5: multiplying by a scalar `k` scales the mean by `k`, the covariance
by `k^2`, and the cached triangular factor by `k` without recomputing the
decomposition; the scaled factor is valid since `(kL)(kL)ᵗ = k²(LLᵗ)`. -/
theorem mvn_mul_scalar_scaling (n : ℕ) (p : MultivariateNormal n) (k : ℝ) :
    (p.mulScalar k).mean = (fun i => k * p.mean i) ∧
    (p.mulScalar k).lazyCovarianceMatrix = (k ^ 2) • p.lazyCovarianceMatrix ∧
    (p.mulScalar k).cachedScaleTril = p.cachedScaleTril.map (fun L => k • L) ∧
    ∀ L : Matrix (Fin n) (Fin n) ℝ,
      (k • L) * transpose (k • L) = (k ^ 2) • (L * transpose L) := by
  refine ⟨rfl, rfl, rfl, fun L => ?_⟩
  rw [Matrix.transpose_smul, Matrix.smul_mul, Matrix.mul_smul, smul_smul]
  ring_nf

/-- C6: division by a nonzero scalar `k` is multiplication by `1/k`, so
multiplying by `k` and then dividing by `k` round-trips the mean and the
covariance matrix. -/
theorem mvn_div_roundtrip (n : ℕ) (p : MultivariateNormal n) (k : ℝ)
    (hk : k ≠ 0) :
    ((p.mulScalar k).divScalar k).mean = p.mean ∧
    ((p.mulScalar k).divScalar k).lazyCovarianceMatrix =
      p.lazyCovarianceMatrix ∧
    p.divScalar k = p.mulScalar (1 / k) := by
  refine ⟨?_, ?_, rfl⟩
  · funext i
    show (1 / k) * (k * p.mean i) = p.mean i
    field_simp
  · show ((1 / k) ^ 2) • ((k ^ 2) • p.lazyCovarianceMatrix) =
      p.lazyCovarianceMatrix
    rw [smul_smul]
    have : (1 / k) ^ 2 * k ^ 2 = 1 := by field_simp
    rw [this, one_smul]

/-- A concrete one-dimensional distribution used by witnesses. -/
def sampleDist1 : MultivariateNormal 1 :=
  { mean := fun _ => 5
    lazyCovarianceMatrix := 1
    islazy := false
    cachedScaleTril := none }

/-- Witness for C6 at `k = 2` on a concrete distribution. -/
theorem mvn_div_roundtrip_witness :
    (2 : ℝ) ≠ 0 ∧
    (((sampleDist1.mulScalar 2).divScalar 2).mean = sampleDist1.mean ∧
      ((sampleDist1.mulScalar 2).divScalar 2).lazyCovarianceMatrix =
        sampleDist1.lazyCovarianceMatrix ∧
      sampleDist1.divScalar 2 = sampleDist1.mulScalar (1 / 2)) :=
  ⟨by norm_num, mvn_div_roundtrip 1 sampleDist1 2 (by norm_num)⟩

/-! ### Batched tensors and sampling (spec sections 4.5, data model section 3)

Tensors are flat real arrays paired with a shape; a batched distribution
stores its mean of shape `batchShape ++ [n]` and its triangular factor of
shape `batchShape ++ [n, n]` in row-major flat form.  Randomness is
abstracted as a stream `ω : ℕ → ℝ` of standard-normal draws. -/

/-- A row-major tensor: a shape together with flat data. -/
structure Tensor where
  shape : List ℕ
  data : List ℝ

/-- Read a flat array at index `i`, with 0 outside the array. -/
def entryAt (l : List ℝ) (i : ℕ) : ℝ :=
  l.getD i 0

/-- Modelled from the spec: a batched multivariate normal with batch
shape `batchShape` and event size `n`, holding a flat mean of shape
`batchShape ++ [n]` and a flat triangular factor of shape
`batchShape ++ [n, n]`. -/
structure BatchedMVN where
  batchShape : List ℕ
  n : ℕ
  meanData : List ℝ
  trilData : List ℝ

/-- Modelled from the spec: `get_base_samples(sample_shape)` draws
untransformed standard-normal base samples of shape
`sample_shape ++ batch_shape ++ [n]` (section 4.5); the draws are read
off the abstract stream `ω`. -/
def BatchedMVN.getBaseSamples (d : BatchedMVN) (sampleShape : List ℕ)
    (ω : ℕ → ℝ) : Tensor :=
  { shape := sampleShape ++ d.batchShape ++ [d.n]
    data := (List.range ((sampleShape ++ d.batchShape).prod * d.n)).map ω }

/-- Modelled from the spec: `sample(base_samples=b)` transforms the given
base samples via `mean + L · b`, broadcasting the distribution's batch
over the leading sample dimensions of `b` (section 4.5). -/
def BatchedMVN.sampleWithBase (d : BatchedMVN) (base : Tensor) : Tensor :=
  { shape := base.shape
    data :=
      (List.range base.shape.dropLast.prod).flatMap (fun r =>
        (List.range d.n).map (fun j =>
          entryAt d.meanData ((r % d.batchShape.prod) * d.n + j) +
            ((List.range d.n).map (fun k =>
              entryAt d.trilData
                  ((r % d.batchShape.prod) * d.n * d.n + j * d.n + k) *
                entryAt base.data (r * d.n + k))).sum)) }

/-- Modelled from the spec: plain `sample(sample_shape)` draws base
samples `~ N(0, I)` of shape `sample_shape ++ batch_shape ++ [n]` from
the stream `ω` and applies the affine transform `mean + L · base`
(section 4.5). -/
def BatchedMVN.sample (d : BatchedMVN) (sampleShape : List ℕ)
    (ω : ℕ → ℝ) : Tensor :=
  { shape := sampleShape ++ d.batchShape ++ [d.n]
    data :=
      (List.range ((sampleShape ++ d.batchShape).prod)).flatMap (fun r =>
        (List.range d.n).map (fun j =>
          entryAt d.meanData ((r % d.batchShape.prod) * d.n + j) +
            ((List.range d.n).map (fun k =>
              entryAt d.trilData
                  ((r % d.batchShape.prod) * d.n * d.n + j * d.n + k) *
                ω (r * d.n + k))).sum)) }

/-- Flat data of a flatMap over blocks of constant length `n` has
`rows * n` entries. -/
theorem flatMap_const_length (rows n : ℕ) (f : ℕ → ℕ → ℝ) :
    ((List.range rows).flatMap
      (fun r => (List.range n).map (f r))).length = rows * n := by
  rw [List.length_flatMap]
  simp only [Function.comp_def]
  have : ((List.range rows).map
      (fun r => ((List.range n).map (f r)).length)) =
      (List.range rows).map (fun _ => n) := by
    refine List.map_congr_left (fun r _ => ?_)
    rw [List.length_map, List.length_range]
  rw [this, List.map_const', List.sum_replicate, List.length_range,
    smul_eq_mul]

/-- C7: `sample(sample_shape)` returns a tensor of shape
`sample_shape ++ batch_shape ++ [n]`, the batch dimensions sitting in the
middle axes, and its flat data has exactly the corresponding number of
entries. -/
theorem sample_shape_spec (d : BatchedMVN) (sampleShape : List ℕ)
    (ω : ℕ → ℝ) :
    (d.sample sampleShape ω).shape =
      sampleShape ++ d.batchShape ++ [d.n] ∧
    (d.sample sampleShape ω).data.length =
      (sampleShape ++ d.batchShape ++ [d.n]).prod := by
  refine ⟨rfl, ?_⟩
  show ((List.range ((sampleShape ++ d.batchShape).prod)).flatMap
      (fun r => (List.range d.n).map _)).length = _
  rw [flatMap_const_length]
  simp [List.prod_append, Nat.mul_assoc]


/-- Reading a flat array built from a stream returns the stream value at
in-range indices. -/
theorem entryAt_range_map (M i : ℕ) (ω : ℕ → ℝ) (h : i < M) :
    entryAt ((List.range M).map ω) i = ω i := by
  unfold entryAt
  rw [List.getD_eq_getElem?_getD, List.getElem?_map, List.getElem?_range h]
  rfl

/-- C8: sampling from given base samples is a pure function of those base
samples (equal inputs give identical outputs), and the transform it
applies — mean plus triangular factor times the base draws — is exactly
the one plain `sample()` applies internally to the draws it takes from
the stream. -/
theorem sample_base_deterministic (d : BatchedMVN) (s : List ℕ)
    (ω : ℕ → ℝ) (b b' : Tensor) (hb : b = b') :
    d.sampleWithBase b = d.sampleWithBase b' ∧
    d.sample s ω = d.sampleWithBase (d.getBaseSamples s ω) := by
  refine ⟨by rw [hb], ?_⟩
  unfold BatchedMVN.sample BatchedMVN.sampleWithBase BatchedMVN.getBaseSamples
  simp only [List.dropLast_concat]
  refine congrArg (Tensor.mk _) ?_
  refine List.flatMap_congr (fun r hr => ?_)
  rw [List.mem_range] at hr
  refine List.map_congr_left (fun j _ => ?_)
  congr 1
  congr 1
  refine List.map_congr_left (fun k hk => ?_)
  rw [List.mem_range] at hk
  congr 1
  refine Eq.symm (entryAt_range_map _ _ ω ?_)
  calc r * d.n + k < (r + 1) * d.n := by
        rw [Nat.succ_mul]
        exact Nat.add_lt_add_left hk _
    _ ≤ (s ++ d.batchShape).prod * d.n :=
        Nat.mul_le_mul_right _ (Nat.succ_le_of_lt hr)

/-- A concrete batched distribution used by sampling witnesses. -/
def sampleBatched : BatchedMVN :=
  { batchShape := [2]
    n := 3
    meanData := [0, 1, 2, 0, 1, 2]
    trilData := [1, 0, 0, 0, 1, 0, 0, 0, 1, 1, 0, 0, 0, 1, 0, 0, 0, 1] }

/-- Witness for C8 at a concrete batched distribution, sample shape
`[2, 4]` and a concrete stream. -/
theorem sample_base_deterministic_witness :
    sampleBatched.getBaseSamples [2, 4] (fun i => (i : ℝ)) =
      sampleBatched.getBaseSamples [2, 4] (fun i => (i : ℝ)) ∧
    (sampleBatched.sampleWithBase
        (sampleBatched.getBaseSamples [2, 4] (fun i => (i : ℝ))) =
      sampleBatched.sampleWithBase
        (sampleBatched.getBaseSamples [2, 4] (fun i => (i : ℝ))) ∧
      sampleBatched.sample [2, 4] (fun i => (i : ℝ)) =
        sampleBatched.sampleWithBase
          (sampleBatched.getBaseSamples [2, 4] (fun i => (i : ℝ)))) :=
  ⟨rfl, sample_base_deterministic sampleBatched [2, 4] (fun i => (i : ℝ))
    _ _ rfl⟩

/-! ### KL divergence (spec section 4.4) -/

/-- Modelled from the spec: the closed-form Gaussian KL divergence of
section 4.4, `KL(p, q) = 1/2 (tr(Σq⁻¹ Σp) + (μq − μp)ᵗ Σq⁻¹ (μq − μp)
− n + log det Σq − log det Σp)`, with the trace, quadratic
mean-difference and log-determinant terms written over the covariance
matrices of the two same-family distributions. -/
noncomputable def klDivergence {n : ℕ} (p q : MultivariateNormal n) : ℝ :=
  (1 / 2) *
    (Matrix.trace (q.lazyCovarianceMatrix⁻¹ * p.lazyCovarianceMatrix) +
      Matrix.dotProduct (fun i => q.mean i - p.mean i)
        (q.lazyCovarianceMatrix⁻¹.mulVec (fun j => q.mean j - p.mean j)) -
      (n : ℝ) +
      Real.log q.lazyCovarianceMatrix.det -
      Real.log p.lazyCovarianceMatrix.det)

/-- C9: for any valid distribution `p` (invertible covariance), the KL
divergence of `p` with itself is exactly 0, hence in particular within
tolerance `1e-2` of 0. -/
theorem kl_divergence_self (n : ℕ) (p : MultivariateNormal n)
    (h : IsUnit p.lazyCovarianceMatrix.det) :
    klDivergence p p = 0 ∧ |klDivergence p p| ≤ 1 / 100 := by
  have hz : klDivergence p p = 0 := by
    unfold klDivergence
    rw [Matrix.nonsing_inv_mul _ h, Matrix.trace_one]
    have hv : (fun j => p.mean j - p.mean j) = (fun _ => (0 : ℝ)) := by
      funext j; ring
    rw [hv]
    have hd : Matrix.dotProduct (fun _ : Fin n => (0 : ℝ))
        (p.lazyCovarianceMatrix⁻¹.mulVec (fun _ => (0 : ℝ))) = 0 := by
      simp [Matrix.dotProduct]
    rw [hd, Fintype.card_fin]
    ring
  rw [hz]
  norm_num

/-- A concrete two-dimensional distribution with identity covariance. -/
def sampleDist2 : MultivariateNormal 2 :=
  { mean := fun _ => 0
    lazyCovarianceMatrix := 1
    islazy := true
    cachedScaleTril := none }

/-- Witness for C9 at a concrete distribution with identity covariance. -/
theorem kl_divergence_self_witness :
    IsUnit (sampleDist2.lazyCovarianceMatrix.det) ∧
    (klDivergence sampleDist2 sampleDist2 = 0 ∧
      |klDivergence sampleDist2 sampleDist2| ≤ 1 / 100) :=
  ⟨by simp [sampleDist2], kl_divergence_self 2 sampleDist2
    (by simp [sampleDist2])⟩

/-- The inverse of a diagonal matrix with nonzero entries is the diagonal
matrix of reciprocals. -/
theorem diagonal_inverse {n : ℕ} (v : Fin n → ℝ) (hv : ∀ i, v i ≠ 0) :
    (Matrix.diagonal v)⁻¹ = Matrix.diagonal (fun i => (v i)⁻¹) := by
  refine Matrix.inv_eq_right_inv ?_
  rw [Matrix.diagonal_mul_diagonal]
  have h1 : (fun i => v i * (v i)⁻¹) = fun _ : Fin n => (1 : ℝ) :=
    funext fun i => mul_inv_cancel₀ (hv i)
  rw [h1]
  exact Matrix.diagonal_one

/-- C10: for 4-dimensional diagonal-covariance Gaussians sharing a mean,
with each variance of `q` equal to the matching variance of `p` times
`e^2`, the KL divergence equals `0.5 * (8 - 4 + 4 * e^(-2))` exactly,
independently of the shared mean and of `p`'s variances. -/
theorem kl_divergence_var_rescale (μ v : Fin 4 → ℝ) (h : ∀ i, 0 < v i) :
    klDivergence
        ⟨μ, Matrix.diagonal v, true, none⟩
        ⟨μ, Matrix.diagonal (fun i => v i * Real.exp 2), true, none⟩ =
      (1 / 2) * (8 - 4 + 4 * Real.exp (-2)) := by
  have hvne : ∀ i, v i ≠ 0 := fun i => ne_of_gt (h i)
  have hwne : ∀ i, v i * Real.exp 2 ≠ 0 :=
    fun i => mul_ne_zero (hvne i) (Real.exp_ne_zero 2)
  unfold klDivergence
  simp only
  rw [diagonal_inverse _ hwne, Matrix.diagonal_mul_diagonal,
    Matrix.trace_diagonal]
  have htr : ∀ i : Fin 4, ((v i * Real.exp 2)⁻¹ * v i) = Real.exp (-2) := by
    intro i
    rw [mul_inv, Real.exp_neg]
    field_simp
    exact div_self (hwne i)
  rw [Finset.sum_congr rfl (fun i _ => htr i), Finset.sum_const,
    Finset.card_univ, Fintype.card_fin]
  have hv0 : (fun j => μ j - μ j) = (fun _ : Fin 4 => (0 : ℝ)) := by
    funext j; ring
  rw [hv0]
  have hd : Matrix.dotProduct (fun _ : Fin 4 => (0 : ℝ))
      ((Matrix.diagonal (fun i => (v i * Real.exp 2)⁻¹)).mulVec
        (fun _ => (0 : ℝ))) = 0 := by
    simp [Matrix.dotProduct]
  rw [hd]
  rw [Matrix.det_diagonal, Matrix.det_diagonal]
  rw [Real.log_prod _ _ (fun i _ => hwne i),
    Real.log_prod _ _ (fun i _ => hvne i)]
  have hlw : ∀ i : Fin 4,
      Real.log (v i * Real.exp 2) = Real.log (v i) + 2 := by
    intro i
    rw [Real.log_mul (hvne i) (Real.exp_ne_zero 2), Real.log_exp]
  rw [Finset.sum_congr rfl (fun i _ => hlw i), Finset.sum_add_distrib,
    Finset.sum_const, Finset.card_univ, Fintype.card_fin]
  push_cast
  ring

/-- Witness for C10 with mean 0 and unit variances. -/
theorem kl_divergence_var_rescale_witness :
    (∀ i : Fin 4, (0 : ℝ) < (fun _ : Fin 4 => (1 : ℝ)) i) ∧
    klDivergence
        ⟨fun _ => 0, Matrix.diagonal (fun _ : Fin 4 => (1 : ℝ)), true, none⟩
        ⟨fun _ => 0,
          Matrix.diagonal
            (fun i => (fun _ : Fin 4 => (1 : ℝ)) i * Real.exp 2),
          true, none⟩ =
      (1 / 2) * (8 - 4 + 4 * Real.exp (-2)) :=
  ⟨fun _ => by norm_num,
    kl_divergence_var_rescale (fun _ => 0) (fun _ => 1)
      (fun _ => by norm_num)⟩

/-! ### Cholesky factor, triangular solve, log-density (spec sections 4.2, 4.4)

The dense-covariance path computes a lower-triangular factor `L` with
`L·Lᵗ = Σ` by the standard Cholesky recurrences, then evaluates the
log-density through `log` of the factor's diagonal and a forward
triangular solve — never through an explicit inverse.  Matrices are
indexed by naturals; dimension is carried separately. -/

/-- Modelled from the spec: column `j` of the Cholesky factor of `A`.
`cholCol A j i` is the entry `L (row i) (column j)`:
`L j j = sqrt (A j j - Σ_{k<j} L j k ^ 2)` and, for `i > j`,
`L i j = (A i j - Σ_{k<j} L i k · L j k) / L j j`; entries above the
diagonal are 0. -/
noncomputable def cholCol (A : ℕ → ℕ → ℝ) : ℕ → ℕ → ℝ
  | j, i =>
    if i < j then 0
    else if i = j then
      Real.sqrt (A j j - ∑ k ∈ (Finset.range j).attach, cholCol A k.1 j ^ 2)
    else
      (A i j - ∑ k ∈ (Finset.range j).attach,
          cholCol A k.1 i * cholCol A k.1 j) /
        Real.sqrt (A j j - ∑ k ∈ (Finset.range j).attach, cholCol A k.1 j ^ 2)
termination_by j _ => j
decreasing_by
  all_goals
    have hk := Finset.mem_range.1 k.2
    omega

/-- Modelled from the spec: forward substitution solving `L y = b` for a
lower-triangular `L`: `y i = (b i - Σ_{k<i} L i k · y k) / L i i`. -/
noncomputable def forwardSolve (L : ℕ → ℕ → ℝ) (b : ℕ → ℝ) : ℕ → ℝ
  | i =>
    (b i - ∑ k ∈ (Finset.range i).attach, L i k.1 * forwardSolve L b k.1) /
      L i i
termination_by i => i
decreasing_by
  have hk := Finset.mem_range.1 k.2
  omega

/-- A diagonal matrix over natural indices. -/
def diagMatrix (v : ℕ → ℝ) : ℕ → ℕ → ℝ :=
  fun i j => if i = j then v i else 0

/-- The Cholesky factor of a diagonal matrix is the diagonal matrix of
square roots. -/
theorem cholCol_diagMatrix (v : ℕ → ℝ) :
    ∀ j i, cholCol (diagMatrix v) j i =
      if i = j then Real.sqrt (v j) else 0 := by
  intro j
  induction j using Nat.strong_induction_on with
  | _ j ih =>
    intro i
    have hs1 : ∑ k ∈ (Finset.range j).attach,
        cholCol (diagMatrix v) k.1 j ^ 2 = 0 := by
      refine Finset.sum_eq_zero (fun k _ => ?_)
      have hk := Finset.mem_range.1 k.2
      rw [ih k.1 hk j, if_neg (by omega)]
      norm_num
    have hs2 : ∑ k ∈ (Finset.range j).attach,
        cholCol (diagMatrix v) k.1 i * cholCol (diagMatrix v) k.1 j = 0 := by
      refine Finset.sum_eq_zero (fun k _ => ?_)
      have hk := Finset.mem_range.1 k.2
      rw [ih k.1 hk j, if_neg (by omega)]
      norm_num
    rw [cholCol, hs1, hs2]
    rcases lt_trichotomy i j with hij | hij | hij
    · rw [if_pos hij, if_neg (by omega)]
    · subst hij
      rw [if_neg (by omega), if_pos rfl, if_pos rfl]
      rw [show diagMatrix v i i = v i from if_pos rfl, sub_zero]
    · rw [if_neg (by omega), if_neg (by omega), if_neg (by omega)]
      rw [show diagMatrix v i j = 0 from if_neg (by omega), sub_zero,
        zero_div]

/-- Forward substitution against a diagonal matrix divides elementwise. -/
theorem forwardSolve_diagMatrix (w b : ℕ → ℝ) (i : ℕ) :
    forwardSolve (diagMatrix w) b i = b i / w i := by
  rw [forwardSolve]
  have hs : ∑ k ∈ (Finset.range i).attach,
      diagMatrix w i k.1 * forwardSolve (diagMatrix w) b k.1 = 0 := by
    refine Finset.sum_eq_zero (fun k _ => ?_)
    have hk := Finset.mem_range.1 k.2
    rw [show diagMatrix w i k.1 = 0 from if_neg (by omega), zero_mul]
  rw [hs, sub_zero, show diagMatrix w i i = w i from if_pos rfl]

/-- Modelled from the spec: the dense-covariance log-density of section
4.4, `-1/2 (n log(2π) + 2 Σ log(diag L) + ‖L⁻¹(value − mean)‖²)`, with
`L` the Cholesky factor of the covariance and the quadratic term solved
by forward substitution, never by an explicit inverse. -/
noncomputable def denseLogProb (nn : ℕ) (μ : ℕ → ℝ) (A : ℕ → ℕ → ℝ)
    (x : ℕ → ℝ) : ℝ :=
  -(1 / 2) *
    ((nn : ℝ) * Real.log (2 * Real.pi) +
      2 * ∑ i ∈ Finset.range nn, Real.log (cholCol A i i) +
      ∑ i ∈ Finset.range nn,
        forwardSolve (fun a b => cholCol A b a) (fun a => x a - μ a) i ^ 2)

/-- Modelled from the spec: the lazy diagonal-covariance log-density
path: for covariance `diag v` the inverse quadratic form is
`Σ (x i − μ i)² / v i` and the log determinant is `Σ log (v i)`
(the diagonal operator's native inverse-quadratic and log-determinant
methods, section 4.4). -/
noncomputable def diagLogProb (nn : ℕ) (μ v x : ℕ → ℝ) : ℝ :=
  -(1 / 2) *
    (∑ i ∈ Finset.range nn, (x i - μ i) ^ 2 / v i +
      ∑ i ∈ Finset.range nn, Real.log (v i) +
      (nn : ℝ) * Real.log (2 * Real.pi))

/-- Modelled from the spec: the entropy of section 4.4,
`1/2 (n log(2π) + n + 2 Σ log(diag L))`. -/
noncomputable def denseEntropy (nn : ℕ) (A : ℕ → ℕ → ℝ) : ℝ :=
  (1 / 2) *
    ((nn : ℝ) * Real.log (2 * Real.pi) + nn +
      2 * ∑ i ∈ Finset.range nn, Real.log (cholCol A i i))

/-- The row-indexed view of the Cholesky factor of a diagonal matrix is
the diagonal matrix of square roots. -/
theorem cholFactor_diagMatrix (v : ℕ → ℝ) :
    (fun a b => cholCol (diagMatrix v) b a) =
      diagMatrix (fun t => Real.sqrt (v t)) := by
  funext a b
  rw [cholCol_diagMatrix]
  unfold diagMatrix
  rcases eq_or_ne a b with hab | hab
  · subst hab
    simp
  · rw [if_neg hab, if_neg hab]

/-- On a diagonal covariance with positive variances, the dense path's
log-density coincides exactly with the lazy diagonal path's. -/
theorem denseLogProb_diagMatrix (nn : ℕ) (μ v x : ℕ → ℝ)
    (h : ∀ i < nn, 0 < v i) :
    denseLogProb nn μ (diagMatrix v) x = diagLogProb nn μ v x := by
  unfold denseLogProb diagLogProb
  have hlog : ∀ i ∈ Finset.range nn,
      Real.log (cholCol (diagMatrix v) i i) = Real.log (v i) / 2 := by
    intro i hi
    rw [cholCol_diagMatrix, if_pos rfl,
      Real.log_sqrt (le_of_lt (h i (Finset.mem_range.1 hi)))]
  have hquad : ∀ i ∈ Finset.range nn,
      forwardSolve (fun a b => cholCol (diagMatrix v) b a)
          (fun a => x a - μ a) i ^ 2 = (x i - μ i) ^ 2 / v i := by
    intro i hi
    rw [cholFactor_diagMatrix, forwardSolve_diagMatrix, div_pow,
      Real.sq_sqrt (le_of_lt (h i (Finset.mem_range.1 hi)))]
  rw [Finset.sum_congr rfl hlog, Finset.sum_congr rfl hquad,
    ← Finset.sum_div]
  ring

/-- C1: for every valid mean and positive diagonal covariance, the
log-density computed through the lazy diagonal path agrees with the
dense-covariance computation within relative tolerance `1e-2` (here: it
agrees exactly, so the tolerance holds a fortiori); instantiating the
mean, variance and value streams per batch element covers the batched
case. -/
theorem log_prob_diag_matches_dense (nn : ℕ) (μ v x : ℕ → ℝ)
    (h : ∀ i < nn, 0 < v i) :
    |diagLogProb nn μ v x - denseLogProb nn μ (diagMatrix v) x| ≤
      (1 / 100) * |diagLogProb nn μ v x| := by
  rw [denseLogProb_diagMatrix nn μ v x h, sub_self, abs_zero]
  positivity

/-- Witness for C1 at a concrete 2-dimensional unit-variance input. -/
theorem log_prob_diag_matches_dense_witness :
    (∀ i < 2, (0 : ℝ) < (fun _ : ℕ => (1 : ℝ)) i) ∧
    |diagLogProb 2 (fun _ => 0) (fun _ => 1) (fun i => (i : ℝ)) -
        denseLogProb 2 (fun _ => 0) (diagMatrix (fun _ => 1))
          (fun i => (i : ℝ))| ≤
      (1 / 100) *
        |diagLogProb 2 (fun _ => 0) (fun _ => 1) (fun i => (i : ℝ))| :=
  ⟨fun _ _ => one_pos,
    log_prob_diag_matches_dense 2 (fun _ => 0) (fun _ => 1)
      (fun i => (i : ℝ)) (fun _ _ => one_pos)⟩

/-! ### Numeric bounds for the 3-dimensional test distribution (C3)

The distribution of `test_multivariate_normal_non_lazy`: mean `[0, 1, 2]`
and diagonal covariance with variances `[1, 0.75, 1.5]`.  Its entropy is
`(3 log π + 2 log 3 + 3) / 2` and its log-density at 0 is
`-(3 log π + 2 log 3 + 4) / 2`; we bound `log 3` and `log π` by the
Taylor series of `log (1 - x)` to settle the asserted decimal values. -/

/-- Lower decimal bound for `log 3` via the series of `log (1 - 1/4)`. -/
theorem log_three_gt : (1.09861 : ℝ) < Real.log 3 := by
  have hx : |(1 / 4 : ℝ)| < 1 := by rw [abs_of_pos] <;> norm_num
  have hs := Real.abs_log_sub_add_sum_range_le hx 10
  rw [abs_le, abs_of_pos (by norm_num : (0 : ℝ) < 1 / 4)] at hs
  obtain ⟨h1, h2⟩ := hs
  norm_num [Finset.sum_range_succ] at h1 h2
  have hkey : Real.log 3 = 2 * Real.log 2 + Real.log (1 - 1 / 4) := by
    rw [show (1 - 1 / 4 : ℝ) = 3 / 4 by norm_num,
      Real.log_div (by norm_num) (by norm_num),
      show (4 : ℝ) = 2 ^ 2 by norm_num, Real.log_pow]
    push_cast
    ring
  have hl2 := Real.log_two_gt_d9
  rw [hkey]
  norm_num
  linarith

/-- Upper decimal bound for `log 3` via the series of `log (1 - 1/4)`. -/
theorem log_three_lt : Real.log 3 < 1.09862 := by
  have hx : |(1 / 4 : ℝ)| < 1 := by rw [abs_of_pos] <;> norm_num
  have hs := Real.abs_log_sub_add_sum_range_le hx 10
  rw [abs_le, abs_of_pos (by norm_num : (0 : ℝ) < 1 / 4)] at hs
  obtain ⟨h1, h2⟩ := hs
  norm_num [Finset.sum_range_succ] at h1 h2
  have hkey : Real.log 3 = 2 * Real.log 2 + Real.log (1 - 1 / 4) := by
    rw [show (1 - 1 / 4 : ℝ) = 3 / 4 by norm_num,
      Real.log_div (by norm_num) (by norm_num),
      show (4 : ℝ) = 2 ^ 2 by norm_num, Real.log_pow]
    push_cast
    ring
  have hl2 := Real.log_two_lt_d9
  rw [hkey]
  norm_num
  linarith

/-- Decimal bounds for `log 3.141592` via the series of
`log (1 - 107301/500000)`. -/
theorem log_d6_bounds :
    (1.144728 : ℝ) < Real.log 3.141592 ∧ Real.log 3.141592 < 1.144731 := by
  have hx : |(107301 / 500000 : ℝ)| < 1 := by rw [abs_of_pos] <;> norm_num
  have hs := Real.abs_log_sub_add_sum_range_le hx 9
  rw [abs_le, abs_of_pos (by norm_num : (0 : ℝ) < 107301 / 500000)] at hs
  obtain ⟨h1, h2⟩ := hs
  norm_num [Finset.sum_range_succ] at h1 h2
  have hkey : Real.log (392699 / 500000 : ℝ) =
      Real.log 3.141592 - 2 * Real.log 2 := by
    rw [show (392699 / 500000 : ℝ) = 3.141592 / 4 by norm_num,
      Real.log_div (by norm_num) (by norm_num),
      show (4 : ℝ) = 2 ^ 2 by norm_num, Real.log_pow]
    push_cast
    ring
  have hl2 := Real.log_two_gt_d9
  have hl2' := Real.log_two_lt_d9
  constructor <;> linarith

/-- Lower decimal bound for `log π`. -/
theorem log_pi_gt : (1.14472 : ℝ) < Real.log Real.pi := by
  have h := log_d6_bounds.1
  have hm : Real.log 3.141592 < Real.log Real.pi :=
    Real.log_lt_log (by norm_num) Real.pi_gt_d6
  linarith

/-- Upper decimal bound for `log π`. -/
theorem log_pi_lt : Real.log Real.pi < 1.14474 := by
  have h := log_d6_bounds.2
  have hm : Real.log Real.pi < Real.log 3.141593 :=
    Real.log_lt_log Real.pi_pos Real.pi_lt_d6
  have hsplit : Real.log (3.141593 / 3.141592 : ℝ) =
      Real.log 3.141593 - Real.log 3.141592 :=
    Real.log_div (by norm_num) (by norm_num)
  have hsub : Real.log (3.141593 / 3.141592 : ℝ) ≤
      3.141593 / 3.141592 - 1 :=
    Real.log_le_sub_one_of_pos (by norm_num)
  have hq : (3.141593 / 3.141592 - 1 : ℝ) < 0.0000004 := by norm_num
  linarith

/-- The variances `[1, 0.75, 1.5]` of the test distribution. -/
noncomputable def varC3 : ℕ → ℝ :=
  fun i => if i = 0 then 1 else if i = 1 then 3 / 4 else 3 / 2

/-- The mean `[0, 1, 2]` of the test distribution. -/
def meanC3 : ℕ → ℝ :=
  fun i => (i : ℝ)

/-- Closed form of the entropy of the test distribution. -/
theorem denseEntropy_varC3 :
    denseEntropy 3 (diagMatrix varC3) =
      (3 * Real.log Real.pi + 2 * Real.log 3 + 3) / 2 := by
  unfold denseEntropy
  have hc : ∀ i ∈ Finset.range 3,
      Real.log (cholCol (diagMatrix varC3) i i) =
        Real.log (Real.sqrt (varC3 i)) := by
    intro i _
    rw [cholCol_diagMatrix, if_pos rfl]
  rw [Finset.sum_congr rfl hc, Finset.sum_range_succ, Finset.sum_range_succ,
    Finset.sum_range_one]
  have h0 : varC3 0 = 1 := rfl
  have h1 : varC3 1 = 3 / 4 := rfl
  have h2 : varC3 2 = 3 / 2 := rfl
  rw [h0, h1, h2, Real.sqrt_one, Real.log_one,
    Real.log_sqrt (by norm_num), Real.log_sqrt (by norm_num),
    Real.log_div (by norm_num) (by norm_num),
    Real.log_div (by norm_num) (by norm_num),
    Real.log_mul (by norm_num) (ne_of_gt Real.pi_pos),
    show (4 : ℝ) = 2 ^ 2 by norm_num, Real.log_pow]
  push_cast
  ring

/-- Closed form of the log-density of the test distribution at 0. -/
theorem denseLogProb_varC3 :
    denseLogProb 3 meanC3 (diagMatrix varC3) (fun _ => 0) =
      -((3 * Real.log Real.pi + 2 * Real.log 3 + 4) / 2) := by
  unfold denseLogProb
  have hv : ∀ i : ℕ, 0 ≤ varC3 i := by
    intro i
    unfold varC3
    split_ifs <;> norm_num
  have hc : ∀ i ∈ Finset.range 3,
      Real.log (cholCol (diagMatrix varC3) i i) =
        Real.log (Real.sqrt (varC3 i)) := by
    intro i _
    rw [cholCol_diagMatrix, if_pos rfl]
  have hq : ∀ i ∈ Finset.range 3,
      forwardSolve (fun a b => cholCol (diagMatrix varC3) b a)
          (fun a => (fun _ : ℕ => (0 : ℝ)) a - meanC3 a) i ^ 2 =
        meanC3 i ^ 2 / varC3 i := by
    intro i _
    rw [cholFactor_diagMatrix, forwardSolve_diagMatrix, div_pow,
      Real.sq_sqrt (hv i)]
    congr 1
    show ((0 : ℝ) - meanC3 i) ^ 2 = meanC3 i ^ 2
    ring
  rw [Finset.sum_congr rfl hc, Finset.sum_congr rfl hq,
    Finset.sum_range_succ, Finset.sum_range_succ, Finset.sum_range_one,
    Finset.sum_range_succ, Finset.sum_range_succ, Finset.sum_range_one]
  have h0 : varC3 0 = 1 := rfl
  have h1 : varC3 1 = 3 / 4 := rfl
  have h2 : varC3 2 = 3 / 2 := rfl
  have hm0 : meanC3 0 = 0 := by norm_num [meanC3]
  have hm1 : meanC3 1 = 1 := by norm_num [meanC3]
  have hm2 : meanC3 2 = 2 := by norm_num [meanC3]
  rw [h0, h1, h2, hm0, hm1, hm2, Real.sqrt_one, Real.log_one,
    Real.log_sqrt (by norm_num), Real.log_sqrt (by norm_num),
    Real.log_div (by norm_num) (by norm_num),
    Real.log_div (by norm_num) (by norm_num),
    Real.log_mul (by norm_num) (ne_of_gt Real.pi_pos),
    show (4 : ℝ) = 2 ^ 2 by norm_num, Real.log_pow]
  push_cast
  ring

/-- C3: the test distribution's entropy is `4.3157` and its log-density
at the zero vector is `-4.8157`, both to absolute tolerance `1e-4`; in a
batch of identical components every batch element yields the same
entropy value. -/
theorem entropy_log_prob_values :
    |denseEntropy 3 (diagMatrix varC3) - 4.3157| < 0.0001 ∧
    |denseLogProb 3 meanC3 (diagMatrix varC3) (fun _ => 0) - (-4.8157)| <
      0.0001 ∧
    ∀ e ∈ (List.replicate 2 (diagMatrix varC3)).map (denseEntropy 3),
      |e - 4.3157| < 0.0001 := by
  have hpg := log_pi_gt
  have hpl := log_pi_lt
  have h3g := log_three_gt
  have h3l := log_three_lt
  have hent : |denseEntropy 3 (diagMatrix varC3) - 4.3157| < 0.0001 := by
    rw [denseEntropy_varC3, abs_lt]
    constructor <;> [norm_num; norm_num] <;> linarith
  refine ⟨hent, ?_, ?_⟩
  · rw [denseLogProb_varC3, abs_lt]
    constructor <;> [norm_num; norm_num] <;> linarith
  · intro e he
    rw [List.mem_map] at he
    obtain ⟨A, hA, rfl⟩ := he
    rw [List.eq_of_mem_replicate hA]
    exact hent
